import Mathlib

/-!
Verification of HElib's `extractDigits.cpp` (p-adic digit extraction on
encrypted integers) against its natural-language specification.

The source file contains two routines:

* `buildDigitPolynomial(ZZX& result, long p, long e)` — builds the degree-p
  "p-th power mimicking" polynomial by interpolating `x - x^p (mod p^e)` on
  the `p` centered representatives `-(p/2) + j`, `j = 0..p-1`, and adding the
  monomial `x^p`.
* `extractDigits(vector<Ctxt>& digits, const Ctxt& c, long r, bool shortCut)`
  — the digit-extraction orchestration: `r` rounds of peeling, each round
  re-applying the p-th-power operation to the stored residues `w[j]`,
  subtracting, and dividing the slots by `p`.

Ciphertext arithmetic (`Ctxt`), `polyEval`, `interpolateMod` and
`effectiveR` are external collaborators (they are not part of the source
file); they are modelled from the spec, slot-wise on plaintext values.
Polynomials are coefficient lists over `ℤ` (index `i` = coefficient of
`X^i`), mirroring NTL's `ZZX`.
-/

namespace HElibDigits

/-- Horner evaluation of a coefficient list (`q[i]` is the coefficient of
`X^i`), matching NTL polynomial evaluation. -/
def evalPoly (q : List ℤ) (v : ℤ) : ℤ :=
  q.foldr (fun a acc => a + v * acc) 0

/-- Coefficient-wise sum of two polynomials. -/
def polyAdd : List ℤ → List ℤ → List ℤ
  | [], q => q
  | q, [] => q
  | a :: q, b :: s => (a + b) :: polyAdd q s

/-- Multiplication of a polynomial by the scalar `c`. -/
def polyScale (c : ℤ) (q : List ℤ) : List ℤ := q.map (fun a => c * a)

/-- Multiplication of a polynomial by the linear factor `X - c`. -/
def polyMulLin (c : ℤ) (q : List ℤ) : List ℤ :=
  polyAdd (polyScale (-c) q) (0 :: q)

/-- The monic product `∏ (X - x)` over the list `xs`. -/
def lagrangeNum (xs : List ℤ) : List ℤ := xs.foldr polyMulLin [1]

/-- NTL's `deg`: index of the highest nonzero coefficient, `-1` for the zero
polynomial (trailing zero coefficients do not count). -/
def polyDeg (q : List ℤ) : ℤ :=
  ((q.reverse.dropWhile (fun a => a == 0)).length : ℤ) - 1

/-- Fuel-driven extended Euclidean algorithm: `egcdAux fuel a b` returns
`(g, x, y)` with `x*a + y*b = g = gcd a b` whenever `b ≤ fuel` (structural
recursion on the fuel keeps the definition kernel-reducible). -/
def egcdAux : ℕ → ℕ → ℕ → ℕ × ℤ × ℤ
  | 0, a, _ => (a, 1, 0)
  | fuel + 1, a, b =>
    if b = 0 then (a, 1, 0)
    else
      let res := egcdAux fuel b (a % b)
      (res.1, res.2.2, res.2.1 - ((a / b : ℕ) : ℤ) * res.2.2)

/-- A representative of the inverse of `a` modulo `m`, from the extended
Euclidean algorithm (Bezout coefficient). -/
def invMod (a m : ℤ) : ℤ :=
  if a < 0 then -((egcdAux m.natAbs a.natAbs m.natAbs).2.1)
  else (egcdAux m.natAbs a.natAbs m.natAbs).2.1

/-- The numerator `∏_{i ≠ j} (X - xs[i])` of the `j`-th Lagrange basis
polynomial for the nodes `xs`. -/
def lagrangeBasisNum (xs : List ℤ) (j : ℕ) : List ℤ :=
  lagrangeNum (((List.range xs.length).filter (fun i => i != j)).map
    (fun i => xs.getD i 0))

/-- Modelled from the spec: `interpolateMod` (from HElib's `polyEval.cpp`,
an external collaborator of the source file) returns the polynomial of
degree `< xs.length` interpolating the points `(xs[j], ys[j])` modulo
`p^e`.  Since the nodes used by `buildDigitPolynomial` form a complete set
of residues modulo the prime `p`, their differences are units modulo `p^e`
and this interpolant exists and is unique modulo `p^e`; it is computed here
by the Lagrange formula, with coefficients reduced modulo `p^e`. -/
def interpolateMod (xs ys : List ℤ) (p e : ℕ) : List ℤ :=
  (((List.range xs.length).map (fun j =>
    polyScale
      (ys.getD j 0 *
        invMod (evalPoly (lagrangeBasisNum xs j) (xs.getD j 0)) ((p : ℤ) ^ e))
      (lagrangeBasisNum xs j))).foldr polyAdd []).map (fun a => a % (p : ℤ) ^ e)

/-- The abscissas of the interpolation table in `buildDigitPolynomial`:
`long bottom = -(p/2); x[j] = bottom + j` for `j = 0..p-1` (the centered
representatives of the residue classes modulo `p`). -/
def digitTableX (p : ℕ) : List ℤ :=
  (List.range p).map (fun (j : ℕ) => -((p : ℤ) / 2) + (j : ℤ))

/-- The `j`-th centered representative `-(p/2) + j` (entry `j` of the
interpolation abscissas). -/
def xNode (p : ℕ) (j : ℕ) : ℤ := -((p : ℤ) / 2) + j

/-- The centered-reduction step of `buildDigitPolynomial`:
`while (y > p2e/2) y -= p2e; while (y < -(p2e/2)) y += p2e;`.
For the ordinates at hand the initial value lies in `(-p2e, p]` with
`p ≤ p2e/2`, so each loop runs at most once and a single conditional pass
is exact. -/
def foldBalanced (m y : ℤ) : ℤ :=
  if y > m / 2 then y - m else if y < -(m / 2) then y + m else y

/-- The ordinates of the interpolation table in `buildDigitPolynomial`:
`y[j] = z - PowerMod((z < 0 ? z + p2e : z), p, p2e)` followed by the
centered reduction (NTL's `PowerMod(a, p, m)` with `0 ≤ a < m` is
`a ^ p mod m`, in `[0, m)`). -/
def digitTableY (p e : ℕ) : List ℤ :=
  (digitTableX p).map (fun z =>
    foldBalanced ((p : ℤ) ^ e)
      (z - (if z < 0 then z + (p : ℤ) ^ e else z) ^ p % (p : ℤ) ^ e))

/-- NTL's `SetCoeff(result, n)`: sets the coefficient of `X^n` to `1`
(padding with zeros as needed; the source asserts `deg(result) < n`
beforehand, so the truncation `take n` never discards data). -/
def setCoeffMonic (q : List ℤ) (n : ℕ) : List ℤ :=
  (q ++ List.replicate (n - q.length) 0).take n ++ [1]

/-- `buildDigitPolynomial(result, p, e)` from the source: for `p < 2` or
`e ≤ 1` it leaves the (empty) polynomial untouched; otherwise it
interpolates `x - x^p (mod p^e)` on the centered representatives and adds
the monomial `x^p`. -/
def buildDigitPolynomial (p e : ℕ) : List ℤ :=
  if p < 2 ∨ e ≤ 1 then []
  else setCoeffMonic (interpolateMod (digitTableX p) (digitTableY p e) p e) p

/-- Modelled from the spec: one plaintext slot of a ciphertext.  `val` is
the integer held by the slot (meaningful modulo `p ^ space`) and `space`
is the exponent of the plaintext-space modulus `p ^ space`.  Levels and
noise are managed by the external ciphertext type and are not modelled. -/
structure Ctxt where
  val : ℤ
  space : ℕ
deriving DecidableEq

instance : Inhabited Ctxt := ⟨⟨0, 0⟩⟩

/-- Modelled from the spec: homomorphic subtraction, slot-wise; the
plaintext spaces are matched (`gcd`, here: min of the exponents). -/
def Ctxt.sub (c d : Ctxt) : Ctxt := ⟨c.val - d.val, min c.space d.space⟩

/-- Modelled from the spec: homomorphic squaring. -/
def Ctxt.square (c : Ctxt) : Ctxt := ⟨c.val ^ 2, c.space⟩

/-- Modelled from the spec: homomorphic cubing. -/
def Ctxt.cube (c : Ctxt) : Ctxt := ⟨c.val ^ 3, c.space⟩

/-- Modelled from the spec: `polyEval(w, x2p, w)` — homomorphic evaluation
of the polynomial `x2p` on the slot values. -/
def Ctxt.polyEvalC (q : List ℤ) (c : Ctxt) : Ctxt := ⟨evalPoly q c.val, c.space⟩

/-- Modelled from the spec: `Ctxt::divideByP` — divide every slot by `p`
and shrink the plaintext space from `p^k` to `p^(k-1)` (meaningful when
the slot content is divisible by `p`; the canonical representative in
`[0, p^k)` is divided). -/
def Ctxt.divideByP (p : ℕ) (c : Ctxt) : Ctxt :=
  ⟨c.val % (p : ℤ) ^ c.space / p, c.space - 1⟩

/-- Modelled from the spec: `Ctxt::effectiveR` — the number `R` of base-p
digits supported by the ciphertext's plaintext space `p^R`. -/
def Ctxt.effectiveR (c : Ctxt) : ℕ := c.space

/-- Modelled from the spec: decryption of one slot — the canonical
representative of the slot value in `[0, p ^ space)`. -/
def decrypt (p : ℕ) (c : Ctxt) : ℤ := c.val % (p : ℤ) ^ c.space

/-- The body of the `FHE_NTIMER` block in the peeling loop: square for
`p = 2`, cube for `p = 3`, otherwise evaluate the digit polynomial
(`"in spirit" w[j] = w[j]^p`). -/
def mimicPow (p : ℕ) (x2p : List ℤ) (c : Ctxt) : Ctxt :=
  if p = 2 then c.square else if p = 3 then c.cube else c.polyEvalC x2p

/-- The inner loop of `extractDigits` at round `i`: for `j < i` replace
`w[j]` by its p-th power image, subtract it from `tmp` and divide `tmp`
by `p`.  The list argument is the already-populated prefix `w[0..i-1]`;
the returned pair is the updated prefix and the final `tmp`. -/
def peel (p : ℕ) (x2p : List ℤ) : List Ctxt → Ctxt → List Ctxt × Ctxt
  | [], tmp => ([], tmp)
  | wj :: ws, tmp =>
    let wj' := mimicPow p x2p wj
    let res := peel p x2p ws ((tmp.sub wj').divideByP p)
    (wj' :: res.1, res.2)

/-- The outer loop of `extractDigits`: `n` rounds starting from the input
ciphertext `c`.  Returns the residue array `w` (length `n`) and the list
of per-round snapshots of `tmp` (the shortcut digits). -/
def rounds (p : ℕ) (x2p : List ℤ) (c : Ctxt) : ℕ → List Ctxt × List Ctxt
  | 0 => ([], [])
  | n + 1 =>
    let prev := rounds p x2p c n
    let pr := peel p x2p prev.1 c
    (pr.1 ++ [pr.2], prev.2 ++ [pr.2])

/-- The clamping of the requested digit count at the top of
`extractDigits`: `long rr = c.effectiveR(); if (r <= 0 || r > rr) r = rr`. -/
def clampR (c : Ctxt) (r : ℤ) : ℕ :=
  (if r ≤ 0 ∨ r > (c.effectiveR : ℤ) then (c.effectiveR : ℤ) else r).toNat

/-- `extractDigits` with an explicitly given digit polynomial and an
already-clamped digit count: runs the `rc` rounds and returns the shortcut
snapshots or the residue array `w` according to the flag. -/
def extractDigitsWith (p : ℕ) (x2p : List ℤ) (c : Ctxt) (rc : ℕ)
    (shortCut : Bool) : List Ctxt :=
  let pr := rounds p x2p c rc
  if shortCut then pr.2 else pr.1

/-- `extractDigits(digits, c, r, shortCut)` from the source, slot-wise:
clamp `r`, build the digit polynomial when `p > 3` (with `e` equal to the
clamped count), run the rounds, and return the digits. -/
def extractDigits (p : ℕ) (c : Ctxt) (r : ℤ) (shortCut : Bool) : List Ctxt :=
  let rc := clampR c r
  extractDigitsWith p (if 3 < p then buildDigitPolynomial p rc else []) c rc
    shortCut

/-- The balanced digit of `v` modulo `p`: the representative of `v` in
`[0, p)` for `p = 2`, and in `[-(p-1)/2, (p-1)/2]` for odd `p`.  These are
exactly the values fixed (to increasing p-adic precision) by the
p-th-power-mimicking operation of `extractDigits`. -/
def balDigit (p : ℕ) (v : ℤ) : ℤ :=
  let m := v % (p : ℤ)
  if p = 2 then m else if 2 * m > (p : ℤ) then m - (p : ℤ) else m

/-- The successive quotients of the balanced base-p expansion of `z`:
`zRem p z 0 = z` and `zRem p z (j+1) = (zRem p z j - balDigit p (zRem p z j)) / p`. -/
def zRem (p : ℕ) (z : ℤ) : ℕ → ℤ
  | 0 => z
  | j + 1 => (zRem p z j - balDigit p (zRem p z j)) / p

/-- The `j`-th balanced base-p digit of `z`. -/
def balDig (p : ℕ) (z : ℤ) (j : ℕ) : ℤ := balDigit p (zRem p z j)

/-- The mutable state of the C++ `extractDigits` routine: the input
ciphertext (a `const` reference), the residue array `w`, the working copy
`tmp`, and the output vector `digits`. -/
structure MState where
  cIn : Ctxt
  w : List Ctxt
  tmp : Ctxt
  outD : List Ctxt
deriving DecidableEq

/-- One iteration of the inner loop of `extractDigits` as a state
transformer: `w[j] = mimic(w[j]); tmp -= w[j]; tmp.divideByP()`. -/
def innerJ (p : ℕ) (x2p : List ℤ) (st : MState) (j : ℕ) : MState :=
  let wj := mimicPow p x2p (st.w.getD j default)
  { st with w := st.w.set j wj, tmp := (st.tmp.sub wj).divideByP p }

/-- One iteration of the outer loop of `extractDigits` as a state
transformer: `tmp = c;` inner loop over `j < i`; `w[i] = tmp;
if (shortCut) digits[i] = tmp`. -/
def roundI (p : ℕ) (x2p : List ℤ) (shortCut : Bool) (st : MState) (i : ℕ) :
    MState :=
  let st1 := { st with tmp := st.cIn }
  let st2 := (List.range i).foldl (innerJ p x2p) st1
  { st2 with w := st2.w.set i st2.tmp,
             outD := if shortCut then st2.outD.set i st2.tmp else st2.outD }

/-- The full `extractDigits` routine as a state machine, mirroring the
C++ statement by statement: allocate `digits` and `w` (filled with fresh
zero ciphertexts at the input's plaintext space), run the `rc` rounds, and
copy `w` into `digits` when the shortcut flag is off. -/
def extractDigitsState (p : ℕ) (c : Ctxt) (r : ℤ) (shortCut : Bool) : MState :=
  let rc := clampR c r
  let x2p := if 3 < p then buildDigitPolynomial p rc else []
  let tmp0 : Ctxt := ⟨0, c.space⟩
  let st0 : MState := ⟨c, List.replicate rc tmp0, tmp0, List.replicate rc tmp0⟩
  let stf := (List.range rc).foldl (roundI p x2p shortCut) st0
  if shortCut then stf else { stf with outD := stf.w }

/-! ### Polynomial evaluation lemmas -/

@[simp] theorem evalPoly_nil (v : ℤ) : evalPoly [] v = 0 := rfl

@[simp] theorem evalPoly_cons (a : ℤ) (q : List ℤ) (v : ℤ) :
    evalPoly (a :: q) v = a + v * evalPoly q v := rfl

theorem evalPoly_polyAdd (q s : List ℤ) (v : ℤ) :
    evalPoly (polyAdd q s) v = evalPoly q v + evalPoly s v := by
  induction q generalizing s with
  | nil => simp [polyAdd]
  | cons a q ih =>
    cases s with
    | nil => simp [polyAdd]
    | cons b s => simp only [polyAdd, evalPoly_cons, ih]; ring

theorem evalPoly_polyScale (c : ℤ) (q : List ℤ) (v : ℤ) :
    evalPoly (polyScale c q) v = c * evalPoly q v := by
  induction q with
  | nil => simp [polyScale]
  | cons a q ih =>
    show c * a + v * evalPoly (polyScale c q) v = c * (a + v * evalPoly q v)
    rw [ih]; ring

theorem evalPoly_polyMulLin (c : ℤ) (q : List ℤ) (v : ℤ) :
    evalPoly (polyMulLin c q) v = (v - c) * evalPoly q v := by
  unfold polyMulLin
  rw [evalPoly_polyAdd, evalPoly_polyScale, evalPoly_cons]
  ring

theorem evalPoly_lagrangeNum (xs : List ℤ) (v : ℤ) :
    evalPoly (lagrangeNum xs) v = (xs.map (fun x => v - x)).prod := by
  induction xs with
  | nil => simp [lagrangeNum, evalPoly]
  | cons x xs ih =>
    show evalPoly (polyMulLin x (lagrangeNum xs)) v = _
    rw [evalPoly_polyMulLin, ih, List.map_cons, List.prod_cons]

theorem evalPoly_append (q s : List ℤ) (v : ℤ) :
    evalPoly (q ++ s) v = evalPoly q v + v ^ q.length * evalPoly s v := by
  induction q with
  | nil => simp
  | cons a q ih =>
    simp only [List.cons_append, evalPoly_cons, ih, List.length_cons]
    ring

theorem evalPoly_replicate_zero (k : ℕ) (v : ℤ) :
    evalPoly (List.replicate k 0) v = 0 := by
  induction k with
  | zero => rfl
  | succ k ih => simp [List.replicate_succ, ih]

theorem polyAdd_length (q s : List ℤ) :
    (polyAdd q s).length = max q.length s.length := by
  induction q generalizing s with
  | nil => simp [polyAdd]
  | cons a q ih =>
    cases s with
    | nil => simp [polyAdd]
    | cons b s => simp only [polyAdd, List.length_cons, ih]; omega

theorem polyScale_length (c : ℤ) (q : List ℤ) :
    (polyScale c q).length = q.length := List.length_map q _

theorem polyMulLin_length (c : ℤ) (q : List ℤ) :
    (polyMulLin c q).length = q.length + 1 := by
  unfold polyMulLin
  rw [polyAdd_length, polyScale_length, List.length_cons]
  omega

theorem lagrangeNum_length (xs : List ℤ) :
    (lagrangeNum xs).length = xs.length + 1 := by
  induction xs with
  | nil => rfl
  | cons x xs ih =>
    show (polyMulLin x (lagrangeNum xs)).length = _
    rw [polyMulLin_length, ih, List.length_cons]

theorem foldr_polyAdd_length_le (L : List (List ℤ)) (k : ℕ)
    (h : ∀ q ∈ L, q.length ≤ k) : (L.foldr polyAdd []).length ≤ k := by
  induction L with
  | nil => simp
  | cons q L ih =>
    simp only [List.foldr_cons]
    rw [polyAdd_length]
    exact max_le (h q (by simp)) (ih (fun s hs => h s (by simp [hs])))

theorem evalPoly_foldr_polyAdd (L : List (List ℤ)) (v : ℤ) :
    evalPoly (L.foldr polyAdd []) v = (L.map (fun q => evalPoly q v)).sum := by
  induction L with
  | nil => simp
  | cons q L ih =>
    simp only [List.foldr_cons, List.map_cons, List.sum_cons, evalPoly_polyAdd, ih]

/-! ### Modular arithmetic helpers -/

theorem modEq_of_dvd_sub {n a b : ℤ} (h : n ∣ a - b) : a ≡ b [ZMOD n] :=
  Int.modEq_iff_dvd.mpr (by rw [← neg_sub a b]; exact dvd_neg.mpr h)

theorem emod_modEq_self (a m : ℤ) : a % m ≡ a [ZMOD m] :=
  Int.emod_emod_of_dvd a dvd_rfl

theorem evalPoly_modEq_point (q : List ℤ) {n a b : ℤ} (h : a ≡ b [ZMOD n]) :
    evalPoly q a ≡ evalPoly q b [ZMOD n] := by
  induction q with
  | nil => rfl
  | cons c q ih => exact (Int.ModEq.refl c).add (h.mul ih)

theorem evalPoly_map_emod (q : List ℤ) (m v : ℤ) :
    evalPoly (q.map (fun a => a % m)) v ≡ evalPoly q v [ZMOD m] := by
  induction q with
  | nil => rfl
  | cons a q ih =>
    simp only [List.map_cons, evalPoly_cons]
    exact (emod_modEq_self a m).add ((Int.ModEq.refl v).mul ih)

theorem dvd_evalPoly {p : ℤ} {q : List ℤ} (h : ∀ a ∈ q, p ∣ a) (v : ℤ) :
    p ∣ evalPoly q v := by
  induction q with
  | nil => simp [evalPoly]
  | cons a q ih =>
    exact dvd_add (h a (by simp)) ((ih (fun x hx => h x (by simp [hx]))).mul_left v)

theorem evalPoly_lift {p : ℤ} {t : ℕ} {q : List ℤ}
    (hq : ∀ a ∈ q, p ∣ a) {a b : ℤ} (h : a ≡ b [ZMOD p ^ t]) :
    evalPoly q a ≡ evalPoly q b [ZMOD p ^ (t + 1)] := by
  induction q with
  | nil => rfl
  | cons c q ih =>
    have hq' : ∀ x ∈ q, p ∣ x := fun x hx => hq x (by simp [hx])
    have ih' := ih hq'
    simp only [evalPoly_cons]
    refine (Int.ModEq.refl c).add (modEq_of_dvd_sub ?_)
    have hsplit : a * evalPoly q a - b * evalPoly q b =
        (a - b) * evalPoly q a + b * (evalPoly q a - evalPoly q b) := by ring
    rw [hsplit]
    refine dvd_add ?_ ?_
    · have d1 : p ^ t ∣ a - b := by
        have hd := h.dvd
        rw [← neg_sub b a]
        exact dvd_neg.mpr hd
      have d2 : p ∣ evalPoly q a := dvd_evalPoly hq' a
      calc p ^ (t + 1) = p ^ t * p := pow_succ p t
        _ ∣ (a - b) * evalPoly q a := mul_dvd_mul d1 d2
    · have d3 : p ^ (t + 1) ∣ evalPoly q a - evalPoly q b := by
        have hd := ih'.dvd
        rw [← neg_sub (evalPoly q b) (evalPoly q a)]
        exact dvd_neg.mpr hd
      exact d3.mul_left b

theorem int_pow_card {p : ℕ} (hp : p.Prime) (z : ℤ) : z ^ p ≡ z [ZMOD (p : ℤ)] := by
  haveI : Fact p.Prime := ⟨hp⟩
  have hc : ((z ^ p : ℤ) : ZMod p) = ((z : ℤ) : ZMod p) := by
    push_cast
    exact ZMod.pow_card _
  exact (ZMod.intCast_eq_intCast_iff _ _ _).mp hc

theorem pow_lift {p : ℕ} (hp : p.Prime) {t : ℕ} (ht : 1 ≤ t) {a b : ℤ}
    (h : a ≡ b [ZMOD (p : ℤ) ^ t]) : a ^ p ≡ b ^ p [ZMOD (p : ℤ) ^ (t + 1)] := by
  haveI : Fact p.Prime := ⟨hp⟩
  have hab1 : a ≡ b [ZMOD (p : ℤ)] :=
    h.of_dvd (dvd_pow_self _ (by omega : t ≠ 0))
  have hsum : ((p : ℤ)) ∣ ∑ i ∈ Finset.range p, a ^ i * b ^ (p - 1 - i) := by
    rw [← ZMod.intCast_zmod_eq_zero_iff_dvd]
    push_cast
    have hcast : ((a : ZMod p)) = (b : ZMod p) :=
      (ZMod.intCast_eq_intCast_iff a b p).mpr hab1
    calc (∑ i ∈ Finset.range p, (a : ZMod p) ^ i * (b : ZMod p) ^ (p - 1 - i))
        = ∑ _i ∈ Finset.range p, (b : ZMod p) ^ (p - 1) := by
          refine Finset.sum_congr rfl (fun i hi => ?_)
          rw [hcast, ← pow_add]
          congr 1
          have := Finset.mem_range.mp hi
          omega
      _ = 0 := by
          rw [Finset.sum_const, Finset.card_range, nsmul_eq_mul,
            ZMod.natCast_self, zero_mul]
  have d1 : (p : ℤ) ^ t ∣ a - b := by
    have hd := h.dvd
    rw [← neg_sub b a]
    exact dvd_neg.mpr hd
  refine modEq_of_dvd_sub ?_
  rw [← geom_sum₂_mul a b p, pow_succ]
  rw [mul_comm ((p : ℤ) ^ t) (p : ℤ)]
  exact mul_dvd_mul hsum d1

theorem div_lift {p : ℤ} (hp : p ≠ 0) {s : ℕ} {a b : ℤ} (ha : p ∣ a) (hb : p ∣ b)
    (h : a ≡ b [ZMOD p ^ (s + 1)]) : a / p ≡ b / p [ZMOD p ^ s] := by
  obtain ⟨a1, rfl⟩ := ha
  obtain ⟨b1, rfl⟩ := hb
  rw [Int.mul_ediv_cancel_left _ hp, Int.mul_ediv_cancel_left _ hp]
  have hd := h.dvd
  have hsplit : p * b1 - p * a1 = p * (b1 - a1) := by ring
  rw [hsplit, pow_succ, mul_comm (p ^ s) p] at hd
  obtain ⟨k, hk⟩ := hd
  rw [mul_assoc] at hk
  have : b1 - a1 = p ^ s * k := mul_left_cancel₀ hp hk
  exact (Int.modEq_iff_dvd.mpr ⟨k, this⟩)

theorem egcdAux_spec : ∀ (fuel a b : ℕ), b ≤ fuel →
    (egcdAux fuel a b).1 = Nat.gcd a b ∧
    (egcdAux fuel a b).2.1 * (a : ℤ) + (egcdAux fuel a b).2.2 * (b : ℤ) =
      ((egcdAux fuel a b).1 : ℤ) := by
  intro fuel
  induction fuel with
  | zero =>
    intro a b hble
    have hb0 : b = 0 := by omega
    subst hb0
    refine ⟨by simp [egcdAux], by simp [egcdAux]⟩
  | succ fuel ih =>
    intro a b hble
    by_cases hb : b = 0
    · subst hb
      refine ⟨by simp [egcdAux], by simp [egcdAux]⟩
    · have hr : a % b ≤ fuel := by
        have hlt := Nat.mod_lt a (by omega : 0 < b)
        omega
      obtain ⟨ihg, ihb⟩ := ih b (a % b) hr
      have heq : egcdAux (fuel + 1) a b =
          ((egcdAux fuel b (a % b)).1, (egcdAux fuel b (a % b)).2.2,
            (egcdAux fuel b (a % b)).2.1 -
              ((a / b : ℕ) : ℤ) * (egcdAux fuel b (a % b)).2.2) := by
        simp [egcdAux, hb]
      rw [heq]
      constructor
      · show (egcdAux fuel b (a % b)).1 = Nat.gcd a b
        rw [ihg, Nat.gcd_comm b (a % b), ← Nat.gcd_rec b a, Nat.gcd_comm b a]
      · show (egcdAux fuel b (a % b)).2.2 * (a : ℤ) +
            ((egcdAux fuel b (a % b)).2.1 -
              ((a / b : ℕ) : ℤ) * (egcdAux fuel b (a % b)).2.2) * (b : ℤ) =
            ((egcdAux fuel b (a % b)).1 : ℤ)
        have hdm : (b : ℤ) * ((a / b : ℕ) : ℤ) + ((a % b : ℕ) : ℤ) = (a : ℤ) := by
          exact_mod_cast Nat.div_add_mod a b
        rw [← hdm]
        linear_combination ihb

theorem invMod_spec {d m : ℤ} (h : Int.gcd d m = 1) :
    d * invMod d m ≡ 1 [ZMOD m] := by
  obtain ⟨hg, hbez⟩ := egcdAux_spec m.natAbs d.natAbs m.natAbs (le_refl _)
  have hg1 : Nat.gcd d.natAbs m.natAbs = 1 := h
  rw [hg, hg1] at hbez
  have hmdvd : m ∣ ((m.natAbs : ℕ) : ℤ) := Int.dvd_natAbs.mpr dvd_rfl
  unfold invMod
  split
  · -- d < 0 : ↑d.natAbs = -d
    rename_i hneg
    have hcast : ((d.natAbs : ℕ) : ℤ) = -d := Int.ofNat_natAbs_of_nonpos (by omega)
    rw [hcast] at hbez
    refine modEq_of_dvd_sub ?_
    have hdd : d * -(egcdAux m.natAbs d.natAbs m.natAbs).2.1 - 1 =
        -((egcdAux m.natAbs d.natAbs m.natAbs).2.2 * ((m.natAbs : ℕ) : ℤ)) := by
      push_cast at hbez ⊢
      linarith
    rw [hdd]
    exact (hmdvd.mul_left _).neg_right
  · rename_i hpos
    have hcast : ((d.natAbs : ℕ) : ℤ) = d := Int.natAbs_of_nonneg (by omega)
    rw [hcast] at hbez
    refine modEq_of_dvd_sub ?_
    have hdd : d * (egcdAux m.natAbs d.natAbs m.natAbs).2.1 - 1 =
        -((egcdAux m.natAbs d.natAbs m.natAbs).2.2 * ((m.natAbs : ℕ) : ℤ)) := by
      push_cast at hbez ⊢
      linarith
    rw [hdd]
    exact (hmdvd.mul_left _).neg_right

theorem list_isCoprime_prod {c : ℤ} {l : List ℤ}
    (h : ∀ x ∈ l, IsCoprime c x) : IsCoprime c l.prod := by
  induction l with
  | nil => simpa using isCoprime_one_right
  | cons x l ih =>
    rw [List.prod_cons]
    exact (h x (by simp)).mul_right (ih (fun y hy => h y (by simp [hy])))

theorem list_sum_eq_of_single {n k : ℕ} (hk : k < n) (h : ℕ → ℤ)
    (h0 : ∀ j, j < n → j ≠ k → h j = 0) :
    ((List.range n).map h).sum = h k := by
  induction n with
  | zero => omega
  | succ n ih =>
    rw [List.range_succ, List.map_append, List.sum_append]
    by_cases hkn : k = n
    · subst hkn
      have hz : ((List.range k).map h).sum = 0 :=
        List.sum_eq_zero (fun x hx => by
          obtain ⟨j, hj, rfl⟩ := List.mem_map.mp hx
          have hjk := List.mem_range.mp hj
          exact h0 j (by omega) (by omega))
      simp [hz]
    · have hn : h n = 0 := h0 n (by omega) (by omega)
      rw [ih (by omega) (fun j hj hjk => h0 j (by omega) hjk)]
      simp [hn]

/-! ### The interpolation table -/

theorem digitTableX_length (p : ℕ) : (digitTableX p).length = p := by
  unfold digitTableX
  rw [List.length_map, List.length_range]

theorem digitTableY_length (p e : ℕ) : (digitTableY p e).length = p := by
  unfold digitTableY
  rw [List.length_map, digitTableX_length]

theorem getD_map_lt {α β : Type} (f : α → β) (l : List α) {j : ℕ}
    (hj : j < l.length) (d : β) (d' : α) :
    (l.map f).getD j d = f (l.getD j d') := by
  rw [List.getD_eq_getElem _ _ (by simpa using hj), List.getD_eq_getElem _ _ hj,
    List.getElem_map]

theorem digitTableX_getD {p j : ℕ} (hj : j < p) :
    (digitTableX p).getD j 0 = xNode p j := by
  unfold digitTableX
  rw [List.getD_eq_getElem _ _
    (by rw [List.length_map, List.length_range]; exact hj)]
  rw [List.getElem_map, List.getElem_range]
  rfl

theorem digitTableY_getD {p e j : ℕ} (hj : j < p) :
    (digitTableY p e).getD j 0 =
      foldBalanced ((p : ℤ) ^ e)
        (xNode p j -
          (if xNode p j < 0 then xNode p j + (p : ℤ) ^ e else xNode p j) ^ p %
            (p : ℤ) ^ e) := by
  unfold digitTableY
  rw [getD_map_lt _ _ (by rw [digitTableX_length]; exact hj) 0 0,
    digitTableX_getD hj]

theorem foldBalanced_modEq (m y : ℤ) : foldBalanced m y ≡ y [ZMOD m] := by
  unfold foldBalanced
  split
  · simpa using (Int.ModEq.refl y).sub (Int.modEq_zero_iff_dvd.mpr dvd_rfl)
  · split
    · simpa using (Int.ModEq.refl y).add (Int.modEq_zero_iff_dvd.mpr dvd_rfl)
    · rfl

theorem digitTableY_modEq {p e j : ℕ} (hj : j < p) :
    (digitTableY p e).getD j 0 ≡ xNode p j - xNode p j ^ p [ZMOD (p : ℤ) ^ e] := by
  rw [digitTableY_getD hj]
  refine (foldBalanced_modEq _ _).trans ?_
  refine (Int.ModEq.refl _).sub ?_
  refine (emod_modEq_self _ _).trans ?_
  refine Int.ModEq.pow p ?_
  split
  · simpa using (Int.ModEq.refl (xNode p j)).add (Int.modEq_zero_iff_dvd.mpr dvd_rfl)
  · rfl

theorem digitTableY_dvd {p e : ℕ} (hp : p.Prime) (he : 1 ≤ e) (j : ℕ) :
    (p : ℤ) ∣ (digitTableY p e).getD j 0 := by
  by_cases hj : j < p
  · have h1 := (digitTableY_modEq (e := e) hj).of_dvd
      (dvd_pow_self (p : ℤ) (by omega : e ≠ 0))
    have h2 : xNode p j - xNode p j ^ p ≡ 0 [ZMOD (p : ℤ)] := by
      simpa using (Int.ModEq.refl (xNode p j)).sub (int_pow_card hp (xNode p j))
    exact Int.modEq_zero_iff_dvd.mp (h1.trans h2)
  · rw [List.getD_eq_default]
    · exact dvd_zero _
    · rw [digitTableY_length]; omega

/-! ### Interpolation correctness -/

theorem length_filter_bne {n j : ℕ} (hj : j < n) :
    ((List.range n).filter (fun i => i != j)).length = n - 1 := by
  have hmem : j ∈ List.range n := List.mem_range.mpr hj
  have he := List.Nodup.erase_eq_filter (List.nodup_range n) j
  rw [← he]
  have hl := List.length_erase_add_one hmem
  rw [List.length_range] at hl
  omega

theorem lagrangeBasisNum_length {xs : List ℤ} {j : ℕ} (hj : j < xs.length) :
    (lagrangeBasisNum xs j).length = xs.length := by
  unfold lagrangeBasisNum
  rw [lagrangeNum_length, List.length_map, length_filter_bne hj]
  omega

theorem evalPoly_lagrangeBasisNum (xs : List ℤ) (j : ℕ) (v : ℤ) :
    evalPoly (lagrangeBasisNum xs j) v =
      (((List.range xs.length).filter (fun i => i != j)).map
        (fun i => v - xs.getD i 0)).prod := by
  unfold lagrangeBasisNum
  rw [evalPoly_lagrangeNum, List.map_map]
  rfl

theorem interpolateMod_length_le (xs ys : List ℤ) (p e : ℕ) :
    (interpolateMod xs ys p e).length ≤ xs.length := by
  unfold interpolateMod
  rw [List.length_map]
  refine foldr_polyAdd_length_le _ _ ?_
  intro q hq
  obtain ⟨j, hj, rfl⟩ := List.mem_map.mp hq
  have hjn := List.mem_range.mp hj
  rw [polyScale_length, lagrangeBasisNum_length hjn]

theorem polyAdd_dvd {d : ℤ} {q s : List ℤ} (hq : ∀ a ∈ q, d ∣ a)
    (hs : ∀ a ∈ s, d ∣ a) : ∀ a ∈ polyAdd q s, d ∣ a := by
  induction q generalizing s with
  | nil => simpa [polyAdd] using hs
  | cons a q ih =>
    cases s with
    | nil => simpa [polyAdd] using hq
    | cons b s =>
      intro x hx
      rcases List.mem_cons.mp hx with h | h
      · subst h
        exact dvd_add (hq a (by simp)) (hs b (by simp))
      · exact ih (fun y hy => hq y (by simp [hy])) (fun y hy => hs y (by simp [hy])) x h

theorem foldr_polyAdd_dvd {d : ℤ} {L : List (List ℤ)}
    (h : ∀ q ∈ L, ∀ a ∈ q, d ∣ a) : ∀ a ∈ L.foldr polyAdd [], d ∣ a := by
  induction L with
  | nil => simp
  | cons q L ih =>
    simp only [List.foldr_cons]
    exact polyAdd_dvd (h q (by simp)) (ih (fun s hs => h s (by simp [hs])))

theorem interpolateMod_coeff_dvd {p e : ℕ} {xs ys : List ℤ} (he : 1 ≤ e)
    (hys : ∀ j, (p : ℤ) ∣ ys.getD j 0) :
    ∀ a ∈ interpolateMod xs ys p e, (p : ℤ) ∣ a := by
  intro a ha
  unfold interpolateMod at ha
  obtain ⟨b, hb, rfl⟩ := List.mem_map.mp ha
  have hdvd_b : (p : ℤ) ∣ b := by
    refine foldr_polyAdd_dvd ?_ b hb
    intro q hq x hx
    obtain ⟨j, hj, rfl⟩ := List.mem_map.mp hq
    obtain ⟨c, hc, rfl⟩ := List.mem_map.mp hx
    exact ((hys j).mul_right _).mul_right _
  have hm : (p : ℤ) ∣ (p : ℤ) ^ e := dvd_pow_self _ (by omega : e ≠ 0)
  rw [Int.emod_def]
  exact dvd_sub hdvd_b (hm.mul_right _)

theorem interp_node {p e : ℕ} (hp : p.Prime) {k : ℕ} (hk : k < p) (ys : List ℤ) :
    evalPoly (interpolateMod (digitTableX p) ys p e) (xNode p k) ≡
      ys.getD k 0 [ZMOD (p : ℤ) ^ e] := by
  unfold interpolateMod
  refine (evalPoly_map_emod _ _ _).trans ?_
  rw [evalPoly_foldr_polyAdd, List.map_map, digitTableX_length]
  simp only [Function.comp_def]
  rw [list_sum_eq_of_single hk]
  · -- the diagonal term: y_k * invMod d m * d ≡ y_k
    rw [evalPoly_polyScale, digitTableX_getD hk]
    have hd : evalPoly (lagrangeBasisNum (digitTableX p) k) (xNode p k) =
        (((List.range p).filter (fun i => i != k)).map
          (fun i => xNode p k - (digitTableX p).getD i 0)).prod := by
      rw [evalPoly_lagrangeBasisNum, digitTableX_length]
    have hcop : IsCoprime ((p : ℤ) ^ e)
        (evalPoly (lagrangeBasisNum (digitTableX p) k) (xNode p k)) := by
      rw [hd]
      refine IsCoprime.pow_left (list_isCoprime_prod ?_)
      intro x hx
      obtain ⟨i, hif, rfl⟩ := List.mem_map.mp hx
      have hi := List.mem_filter.mp hif
      have hirange := List.mem_range.mp hi.1
      have hine : i ≠ k := by simpa using hi.2
      rw [digitTableX_getD hirange]
      have hdiff : xNode p k - xNode p i = (k : ℤ) - i := by unfold xNode; ring
      rw [hdiff]
      have hpint : Prime ((p : ℤ)) := Nat.prime_iff_prime_int.mp hp
      rw [hpint.coprime_iff_not_dvd]
      intro hdvd
      have habs : ((k : ℤ) - i).natAbs < p ∧ ((k : ℤ) - i).natAbs ≠ 0 := by omega
      have hnat : p ∣ ((k : ℤ) - i).natAbs := by
        have := Int.natAbs_dvd_natAbs.mpr hdvd
        rwa [Int.natAbs_ofNat] at this
      exact absurd (Nat.le_of_dvd (by omega) hnat) (by omega)
    have hgcd : Int.gcd (evalPoly (lagrangeBasisNum (digitTableX p) k)
        (xNode p k)) ((p : ℤ) ^ e) = 1 :=
      Int.isCoprime_iff_gcd_eq_one.mp hcop.symm
    calc ys.getD k 0 *
          invMod (evalPoly (lagrangeBasisNum (digitTableX p) k) (xNode p k))
            ((p : ℤ) ^ e) *
          evalPoly (lagrangeBasisNum (digitTableX p) k) (xNode p k)
        = ys.getD k 0 *
            (evalPoly (lagrangeBasisNum (digitTableX p) k) (xNode p k) *
              invMod (evalPoly (lagrangeBasisNum (digitTableX p) k) (xNode p k))
                ((p : ℤ) ^ e)) := by ring
      _ ≡ ys.getD k 0 * 1 [ZMOD (p : ℤ) ^ e] :=
          (Int.ModEq.refl _).mul (invMod_spec hgcd)
      _ = ys.getD k 0 := mul_one _
  · -- off-diagonal terms vanish
    intro j hj hjk
    rw [evalPoly_polyScale]
    have hmem0 : (0 : ℤ) ∈ ((List.range p).filter (fun i => i != j)).map
        (fun i => xNode p k - (digitTableX p).getD i 0) := by
      refine List.mem_map.mpr ⟨k, ?_, ?_⟩
      · refine List.mem_filter.mpr ⟨List.mem_range.mpr hk, ?_⟩
        simpa using (fun h => hjk h.symm)
      · rw [digitTableX_getD hk]; ring
    have hz : evalPoly (lagrangeBasisNum (digitTableX p) j) (xNode p k) = 0 := by
      rw [evalPoly_lagrangeBasisNum, digitTableX_length]
      exact List.prod_eq_zero hmem0
    rw [hz, mul_zero]

/-! ### Properties of the digit polynomial -/

theorem buildDigitPolynomial_eval {p e : ℕ} (h2 : 2 ≤ p) (he : 2 ≤ e) (v : ℤ) :
    evalPoly (buildDigitPolynomial p e) v =
      evalPoly (interpolateMod (digitTableX p) (digitTableY p e) p e) v + v ^ p := by
  unfold buildDigitPolynomial
  rw [if_neg (by omega)]
  have hlen : (interpolateMod (digitTableX p) (digitTableY p e) p e).length ≤ p := by
    have h := interpolateMod_length_le (digitTableX p) (digitTableY p e) p e
    rwa [digitTableX_length] at h
  unfold setCoeffMonic
  have hlen2 : (interpolateMod (digitTableX p) (digitTableY p e) p e ++
      List.replicate (p - (interpolateMod (digitTableX p) (digitTableY p e) p e).length)
        0).length = p := by
    rw [List.length_append, List.length_replicate]
    omega
  rw [List.take_of_length_le (le_of_eq hlen2), evalPoly_append, evalPoly_append,
    evalPoly_replicate_zero, hlen2]
  simp only [evalPoly_cons, evalPoly_nil, mul_zero, add_zero, mul_one]

theorem buildDigitPolynomial_fixed {p e : ℕ} (hp : p.Prime) (he : 2 ≤ e)
    {k : ℕ} (hk : k < p) :
    evalPoly (buildDigitPolynomial p e) (xNode p k) ≡ xNode p k [ZMOD (p : ℤ) ^ e] := by
  rw [buildDigitPolynomial_eval hp.two_le he]
  have h1 := interp_node (e := e) hp hk (digitTableY p e)
  have h2 := digitTableY_modEq (e := e) (j := k) hk
  calc evalPoly (interpolateMod (digitTableX p) (digitTableY p e) p e)
        (xNode p k) + xNode p k ^ p
      ≡ (xNode p k - xNode p k ^ p) + xNode p k ^ p [ZMOD (p : ℤ) ^ e] :=
        Int.ModEq.add_right _ (h1.trans h2)
    _ = xNode p k := by ring

theorem build_lift_aux {p e t : ℕ} (hp : p.Prime) (he : 2 ≤ e) (ht : 1 ≤ t)
    (hte : t < e) {z z0 : ℤ} (hz0 : z0 ∈ digitTableX p)
    (hz : z ≡ z0 [ZMOD (p : ℤ) ^ t]) :
    evalPoly (buildDigitPolynomial p e) z ≡ z0 [ZMOD (p : ℤ) ^ (t + 1)] := by
  unfold digitTableX at hz0
  obtain ⟨k, hkr, hnode⟩ := List.mem_map.mp hz0
  have hkp : k < p := List.mem_range.mp hkr
  have hzn : xNode p k = z0 := hnode
  have hG_dvd : ∀ a ∈ interpolateMod (digitTableX p) (digitTableY p e) p e,
      (p : ℤ) ∣ a :=
    interpolateMod_coeff_dvd (by omega) (digitTableY_dvd hp (by omega))
  rw [buildDigitPolynomial_eval hp.two_le he]
  have s1 := evalPoly_lift hG_dvd hz
  have s2 := pow_lift hp ht hz
  have s4 : evalPoly (interpolateMod (digitTableX p) (digitTableY p e) p e) z0 +
      z0 ^ p ≡ z0 [ZMOD (p : ℤ) ^ (t + 1)] := by
    have hfix := buildDigitPolynomial_fixed hp he hkp
    rw [hzn, buildDigitPolynomial_eval hp.two_le he] at hfix
    exact hfix.of_dvd (pow_dvd_pow _ (by omega : t + 1 ≤ e))
  exact (s1.add s2).trans s4

/-! ### Structural lemmas about the extraction loops -/

theorem peel_nil (p : ℕ) (x2p : List ℤ) (tmp : Ctxt) :
    peel p x2p [] tmp = ([], tmp) := rfl

theorem peel_cons (p : ℕ) (x2p : List ℤ) (wj : Ctxt) (ws : List Ctxt) (tmp : Ctxt) :
    peel p x2p (wj :: ws) tmp =
      ((mimicPow p x2p wj) ::
        (peel p x2p ws ((tmp.sub (mimicPow p x2p wj)).divideByP p)).1,
       (peel p x2p ws ((tmp.sub (mimicPow p x2p wj)).divideByP p)).2) := rfl

theorem rounds_zero (p : ℕ) (x2p : List ℤ) (c : Ctxt) :
    rounds p x2p c 0 = ([], []) := rfl

theorem rounds_succ (p : ℕ) (x2p : List ℤ) (c : Ctxt) (n : ℕ) :
    rounds p x2p c (n + 1) =
      ((peel p x2p (rounds p x2p c n).1 c).1 ++ [(peel p x2p (rounds p x2p c n).1 c).2],
       (rounds p x2p c n).2 ++ [(peel p x2p (rounds p x2p c n).1 c).2]) := rfl

theorem peel_fst (p : ℕ) (x2p : List ℤ) (ws : List Ctxt) (tmp : Ctxt) :
    (peel p x2p ws tmp).1 = ws.map (mimicPow p x2p) := by
  induction ws generalizing tmp with
  | nil => rfl
  | cons wj ws ih => rw [peel_cons, List.map_cons, ih]

theorem mimicPow_space (p : ℕ) (x2p : List ℤ) (c : Ctxt) :
    (mimicPow p x2p c).space = c.space := by
  unfold mimicPow Ctxt.square Ctxt.cube Ctxt.polyEvalC
  split
  · rfl
  · split <;> rfl

theorem rounds_fst_length (p : ℕ) (x2p : List ℤ) (c : Ctxt) (n : ℕ) :
    (rounds p x2p c n).1.length = n := by
  induction n with
  | zero => rfl
  | succ n ih =>
    rw [rounds_succ, List.length_append, peel_fst, List.length_map, ih]
    rfl

theorem rounds_snd_length (p : ℕ) (x2p : List ℤ) (c : Ctxt) (n : ℕ) :
    (rounds p x2p c n).2.length = n := by
  induction n with
  | zero => rfl
  | succ n ih =>
    rw [rounds_succ, List.length_append, ih]
    rfl

theorem rounds_w_iterate (p : ℕ) (x2p : List ℤ) (c : Ctxt) :
    ∀ n, ∀ j < n,
      (rounds p x2p c n).1.getD j default =
        (mimicPow p x2p)^[n - 1 - j] ((rounds p x2p c n).2.getD j default) := by
  intro n
  induction n with
  | zero => omega
  | succ n ih =>
    intro j hj
    rw [rounds_succ]
    by_cases hjn : j < n
    · rw [List.getD_append _ _ _ _ (by rw [peel_fst, List.length_map, rounds_fst_length]; exact hjn),
        List.getD_append _ _ _ _ (by rw [rounds_snd_length]; exact hjn)]
      rw [peel_fst, getD_map_lt _ _ (by rw [rounds_fst_length]; exact hjn) default default]
      rw [ih j hjn]
      rw [← Function.iterate_succ_apply' (mimicPow p x2p)]
      congr 1
      omega
    · have hjeq : j = n := by omega
      subst hjeq
      rw [List.getD_append_right _ _ _ _ (by rw [peel_fst, List.length_map, rounds_fst_length]),
        List.getD_append_right _ _ _ _ (by rw [rounds_snd_length])]
      rw [peel_fst, List.length_map, rounds_fst_length, rounds_snd_length]
      simp

theorem peel_tmp_space (p : ℕ) (x2p : List ℤ) (rr : ℕ) :
    ∀ (ws : List Ctxt) (tmp : Ctxt) (k : ℕ),
      tmp.space = rr - k →
      (∀ m < ws.length, (ws.getD m default).space = rr - (k + m)) →
      (peel p x2p ws tmp).2.space = rr - (k + ws.length) := by
  intro ws
  induction ws with
  | nil => intro tmp k htmp _; simpa [peel_nil] using htmp
  | cons wj ws ih =>
    intro tmp k htmp hws
    rw [peel_cons]
    have hwj : (wj :: ws).getD 0 default = wj := rfl
    have hwjs : wj.space = rr - k := by
      have := hws 0 (by simp)
      simpa [hwj] using this
    have htmp' : ((tmp.sub (mimicPow p x2p wj)).divideByP p).space = rr - (k + 1) := by
      unfold Ctxt.divideByP Ctxt.sub
      simp only [mimicPow_space, htmp, hwjs]
      omega
    have hrec := ih ((tmp.sub (mimicPow p x2p wj)).divideByP p) (k + 1) htmp'
      (fun m hm => by
        have := hws (m + 1) (by simpa using Nat.succ_lt_succ hm)
        simpa [Nat.add_assoc, Nat.add_comm 1 m] using this)
    rw [hrec]
    congr 1
    simp [List.length_cons]
    omega

theorem rounds_spaces (p : ℕ) (x2p : List ℤ) (c : Ctxt) :
    ∀ n, ∀ j < n,
      ((rounds p x2p c n).1.getD j default).space = c.space - j ∧
      ((rounds p x2p c n).2.getD j default).space = c.space - j := by
  intro n
  induction n with
  | zero => omega
  | succ n ih =>
    intro j hj
    have htmpf : (peel p x2p (rounds p x2p c n).1 c).2.space = c.space - n := by
      have := peel_tmp_space p x2p c.space (rounds p x2p c n).1 c 0
        (by omega)
        (fun m hm => by
          have hmn : m < n := by rwa [rounds_fst_length] at hm
          have := (ih m hmn).1
          simpa using this)
      rw [rounds_fst_length] at this
      simpa using this
    rw [rounds_succ]
    by_cases hjn : j < n
    · constructor
      · rw [List.getD_append _ _ _ _ (by rw [peel_fst, List.length_map, rounds_fst_length]; exact hjn)]
        rw [peel_fst, getD_map_lt _ _ (by rw [rounds_fst_length]; exact hjn) default default,
          mimicPow_space]
        exact (ih j hjn).1
      · rw [List.getD_append _ _ _ _ (by rw [rounds_snd_length]; exact hjn)]
        exact (ih j hjn).2
    · have hjeq : j = n := by omega
      subst hjeq
      constructor
      · rw [List.getD_append_right _ _ _ _ (by rw [peel_fst, List.length_map, rounds_fst_length])]
        rw [peel_fst, List.length_map, rounds_fst_length]
        simpa using htmpf
      · rw [List.getD_append_right _ _ _ _ (by rw [rounds_snd_length])]
        rw [rounds_snd_length]
        simpa using htmpf

/-! ### Balanced digits -/

theorem balDigit_modEq (p : ℕ) (v : ℤ) : balDigit p v ≡ v [ZMOD (p : ℤ)] := by
  have h0 : (v % (p : ℤ)) ≡ v [ZMOD (p : ℤ)] := emod_modEq_self v (p : ℤ)
  unfold balDigit
  dsimp only
  split
  · exact h0
  · split
    · simpa using h0.sub (Int.modEq_zero_iff_dvd.mpr dvd_rfl)
    · exact h0

theorem dvd_sub_balDigit (p : ℕ) (v : ℤ) : (p : ℤ) ∣ v - balDigit p v :=
  (balDigit_modEq p v).dvd

theorem zRem_succ_mul (p : ℕ) (z : ℤ) (j : ℕ) :
    (p : ℤ) * zRem p z (j + 1) = zRem p z j - balDig p z j := by
  show (p : ℤ) * ((zRem p z j - balDigit p (zRem p z j)) / p) = _
  exact Int.mul_ediv_cancel' (dvd_sub_balDigit p (zRem p z j))

theorem balDigit_two (u : ℤ) : balDigit 2 u = u % 2 := by
  unfold balDigit
  norm_num

theorem balDigit_sq_two (u : ℤ) : balDigit 2 u ^ 2 = balDigit 2 u := by
  rw [balDigit_two]
  have h : u % 2 = 0 ∨ u % 2 = 1 := by omega
  rcases h with h | h <;> rw [h] <;> norm_num

theorem balDigit_cube_three (u : ℤ) : balDigit 3 u ^ 3 = balDigit 3 u := by
  have h3 : u % (3 : ℤ) = 0 ∨ u % (3 : ℤ) = 1 ∨ u % (3 : ℤ) = 2 := by omega
  rcases h3 with h | h | h <;> norm_num [balDigit, h]

theorem balDigit_mem_table {p : ℕ} (hp : p.Prime) (hp3 : 3 < p) (u : ℤ) :
    balDigit p u ∈ digitTableX p := by
  have hodd : p % 2 = 1 := by
    have h2 : ¬ (2 ∣ p) := by
      intro hdvd
      rcases hp.eq_one_or_self_of_dvd 2 hdvd with h | h <;> omega
    omega
  have hppos : (0 : ℤ) < p := by exact_mod_cast hp.pos
  have hp0 : (0 : ℤ) ≤ u % p := Int.emod_nonneg u hppos.ne'
  have hp1 : u % (p : ℤ) < p := Int.emod_lt_of_pos u hppos
  have hz2 : ((p : ℤ)) = 2 * ((p : ℤ) / 2) + 1 := by
    have hnat : p = 2 * (p / 2) + 1 := by omega
    have hdiv : ((p / 2 : ℕ) : ℤ) = (p : ℤ) / 2 := Int.ofNat_ediv p 2
    rw [← hdiv]
    exact_mod_cast hnat
  have hbd : balDigit p u =
      if 2 * (u % (p : ℤ)) > (p : ℤ) then u % p - p else u % p := by
    unfold balDigit
    rw [if_neg (by omega : ¬ p = 2)]
  have hb1 : -((p : ℤ) / 2) ≤ balDigit p u ∧ balDigit p u + (p : ℤ) / 2 < p := by
    rw [hbd]
    split <;> omega
  unfold digitTableX
  refine List.mem_map.mpr ⟨(balDigit p u + (p : ℤ) / 2).toNat, List.mem_range.mpr ?_, ?_⟩
  · omega
  · show -((p : ℤ) / 2) + ((balDigit p u + (p : ℤ) / 2).toNat : ℤ) = balDigit p u
    omega

/-! ### Clamping -/

theorem clampR_natCast {c : Ctxt} {r : ℕ} (h1 : 1 ≤ r) (h2 : r ≤ c.effectiveR) :
    clampR c (r : ℤ) = r := by
  unfold clampR
  rw [if_neg (by push_neg; constructor <;> [omega; exact_mod_cast h2])]
  exact Int.toNat_natCast r

theorem foldBalanced_bounds {m y : ℤ} (hup : y ≤ m / 2) (hlow : -(m / 2) - m ≤ y) :
    -(m / 2) ≤ foldBalanced m y ∧ foldBalanced m y ≤ m / 2 := by
  have hdm := Int.ediv_add_emod m 2
  have hr0 : 0 ≤ m % 2 := Int.emod_nonneg m (by norm_num)
  have hr1 : m % 2 < 2 := Int.emod_lt_of_pos m (by norm_num)
  unfold foldBalanced
  split
  · omega
  · split <;> omega

/-! ### The p-th-power-mimicking operation lifts balanced digits -/

theorem mimicPow_val_lift {p : ℕ} (hp : p.Prime) {rr t : ℕ} (ht : 1 ≤ t)
    (htr : t + 1 ≤ rr) {x2p : List ℤ} (hx : 3 < p → x2p = buildDigitPolynomial p rr)
    {c : Ctxt} {u : ℤ} (hv : c.val ≡ balDigit p u [ZMOD (p : ℤ) ^ t]) :
    (mimicPow p x2p c).val ≡ balDigit p u [ZMOD (p : ℤ) ^ (t + 1)] := by
  unfold mimicPow
  by_cases h2 : p = 2
  · subst h2
    rw [if_pos rfl]
    show c.val ^ 2 ≡ _ [ZMOD _]
    have hlift := pow_lift (by norm_num : Nat.Prime 2) ht hv
    rwa [balDigit_sq_two] at hlift
  · by_cases h3 : p = 3
    · subst h3
      rw [if_neg (by omega), if_pos rfl]
      show c.val ^ 3 ≡ _ [ZMOD _]
      have hlift := pow_lift (by norm_num : Nat.Prime 3) ht hv
      rwa [balDigit_cube_three] at hlift
    · have hp3 : 3 < p := by
        have h2le := hp.two_le
        omega
      rw [if_neg h2, if_neg h3]
      show evalPoly x2p c.val ≡ _ [ZMOD _]
      rw [hx hp3]
      exact build_lift_aux hp (by omega) ht (by omega) (balDigit_mem_table hp hp3 u) hv

/-! ### The peeling loop -/

theorem peel_spec {p : ℕ} (hp : p.Prime) {x2p : List ℤ} {rr : ℕ}
    (hx : 3 < p → x2p = buildDigitPolynomial p rr) (z : ℤ) {n : ℕ} (hn : n + 1 ≤ rr) :
    ∀ (ws : List Ctxt) (tmp : Ctxt) (k : ℕ),
      k + ws.length = n →
      tmp.space = rr - k →
      tmp.val ≡ zRem p z k [ZMOD (p : ℤ) ^ (n + 1 - k)] →
      (∀ m < ws.length, (ws.getD m default).space = rr - (k + m) ∧
        (ws.getD m default).val ≡ balDig p z (k + m)
          [ZMOD (p : ℤ) ^ (n - (k + m))]) →
      (∀ m < ws.length,
        ((peel p x2p ws tmp).1.getD m default).val ≡ balDig p z (k + m)
          [ZMOD (p : ℤ) ^ (n + 1 - (k + m))]) ∧
      (peel p x2p ws tmp).2.val ≡ zRem p z n [ZMOD (p : ℤ)] := by
  intro ws
  induction ws with
  | nil =>
    intro tmp k hlen _ htv _
    refine ⟨fun m hm => absurd hm (by simp), ?_⟩
    rw [peel_nil]
    have hk : k = n := by simpa using hlen
    subst hk
    have heq1 : k + 1 - k = 1 := by omega
    rw [heq1, pow_one] at htv
    exact htv
  | cons wj ws ih =>
    intro tmp k hlen hts htv hws
    have hk_lt : k < n := by
      simp only [List.length_cons] at hlen
      omega
    have hwj := hws 0 (by simp)
    rw [List.getD_cons_zero] at hwj
    have hwjs : wj.space = rr - k := by simpa using hwj.1
    have hwjv : wj.val ≡ balDig p z k [ZMOD (p : ℤ) ^ (n - k)] := by
      simpa using hwj.2
    -- one application of the p-th-power operation lifts the digit congruence
    have hlift : (mimicPow p x2p wj).val ≡ balDig p z k
        [ZMOD (p : ℤ) ^ (n - k + 1)] :=
      mimicPow_val_lift hp (by omega) (by omega) hx hwjv
    have hwspace : (mimicPow p x2p wj).space = rr - k := by
      rw [mimicPow_space]; exact hwjs
    -- congruence for the subtracted value
    have hcong1 : tmp.val - (mimicPow p x2p wj).val ≡
        zRem p z k - balDig p z k [ZMOD (p : ℤ) ^ (n + 1 - k)] := by
      have h2 : (mimicPow p x2p wj).val ≡ balDig p z k
          [ZMOD (p : ℤ) ^ (n + 1 - k)] := by
        have heq : n - k + 1 = n + 1 - k := by omega
        rwa [heq] at hlift
      exact htv.sub h2
    have hdvd_diff : (p : ℤ) ∣ zRem p z k - balDig p z k :=
      dvd_sub_balDigit p (zRem p z k)
    have hdvd_v : (p : ℤ) ∣ tmp.val - (mimicPow p x2p wj).val := by
      have hmod_p := hcong1.of_dvd (dvd_pow_self (p : ℤ) (by omega : n + 1 - k ≠ 0))
      exact Int.modEq_zero_iff_dvd.mp
        (hmod_p.trans (Int.modEq_zero_iff_dvd.mpr hdvd_diff))
    -- the divide-by-p step
    have hdivval : ((tmp.sub (mimicPow p x2p wj)).divideByP p).val =
        (tmp.val - (mimicPow p x2p wj).val) % (p : ℤ) ^ (rr - k) / p := by
      show (tmp.val - (mimicPow p x2p wj).val) %
          (p : ℤ) ^ (min tmp.space (mimicPow p x2p wj).space) / p = _
      rw [hts, hwspace, min_self]
    have hdivspace : ((tmp.sub (mimicPow p x2p wj)).divideByP p).space =
        rr - (k + 1) := by
      show min tmp.space (mimicPow p x2p wj).space - 1 = _
      rw [hts, hwspace, min_self]
      omega
    have hrrk : n + 1 - k ≤ rr - k := by omega
    have hvmod : (tmp.val - (mimicPow p x2p wj).val) % (p : ℤ) ^ (rr - k) ≡
        zRem p z k - balDig p z k [ZMOD (p : ℤ) ^ (n + 1 - k)] :=
      ((emod_modEq_self _ _).of_dvd (pow_dvd_pow _ hrrk)).trans hcong1
    have hdvd_vmod : (p : ℤ) ∣
        (tmp.val - (mimicPow p x2p wj).val) % (p : ℤ) ^ (rr - k) := by
      rw [Int.emod_def]
      exact dvd_sub hdvd_v
        ((dvd_pow_self (p : ℤ) (by omega : rr - k ≠ 0)).mul_right _)
    have hpne : ((p : ℤ)) ≠ 0 := by exact_mod_cast hp.pos.ne'
    have hnew : ((tmp.sub (mimicPow p x2p wj)).divideByP p).val ≡
        zRem p z (k + 1) [ZMOD (p : ℤ) ^ (n + 1 - (k + 1))] := by
      rw [hdivval]
      have hsucc : n + 1 - k = (n - k) + 1 := by omega
      rw [hsucc] at hvmod
      have hstep := div_lift hpne hdvd_vmod hdvd_diff hvmod
      have heq2 : n + 1 - (k + 1) = n - k := by omega
      rw [heq2]
      exact hstep
    -- inductive hypothesis on the tail
    have hihres := ih ((tmp.sub (mimicPow p x2p wj)).divideByP p) (k + 1)
      (by simp only [List.length_cons] at hlen; omega)
      hdivspace hnew
      (fun m hm => by
        have hm1 := hws (m + 1) (by simpa using Nat.succ_lt_succ hm)
        rw [List.getD_cons_succ] at hm1
        have harith : k + (m + 1) = k + 1 + m := by omega
        rw [harith] at hm1
        exact hm1)
    refine ⟨?_, by simp only [peel_cons]; exact hihres.2⟩
    intro m hm
    simp only [peel_cons]
    cases m with
    | zero =>
      rw [List.getD_cons_zero]
      have heq : n + 1 - (k + 0) = n - k + 1 := by omega
      rw [heq]
      simpa using hlift
    | succ m' =>
      rw [List.getD_cons_succ]
      have hres := hihres.1 m' (by
        simp only [List.length_cons] at hm
        omega)
      have harith : k + 1 + m' = k + (m' + 1) := by omega
      rw [harith] at hres
      exact hres

/-! ### The full round structure -/

theorem rounds_spec {p : ℕ} (hp : p.Prime) {x2p : List ℤ} {z : ℤ} {rr : ℕ}
    (hx : 3 < p → x2p = buildDigitPolynomial p rr) :
    ∀ n, n ≤ rr →
      (∀ j < n, ((rounds p x2p ⟨z, rr⟩ n).1.getD j default).val ≡ balDig p z j
        [ZMOD (p : ℤ) ^ (n - j)]) ∧
      (∀ j < n, ((rounds p x2p ⟨z, rr⟩ n).2.getD j default).val ≡ zRem p z j
        [ZMOD (p : ℤ)]) := by
  intro n
  induction n with
  | zero => exact fun _ => ⟨fun j hj => absurd hj (by omega),
      fun j hj => absurd hj (by omega)⟩
  | succ n ih =>
    intro hn1
    obtain ⟨ihw, ihds⟩ := ih (by omega)
    have hps := peel_spec hp hx z (by omega : n + 1 ≤ rr)
      (rounds p x2p ⟨z, rr⟩ n).1 ⟨z, rr⟩ 0
      (by rw [rounds_fst_length]; omega)
      (by show rr = rr - 0; omega)
      (Int.ModEq.refl z)
      (fun m hm => by
        have hmn : m < n := by rwa [rounds_fst_length] at hm
        refine ⟨?_, by simpa using ihw m hmn⟩
        have hsp := (rounds_spaces p x2p ⟨z, rr⟩ n m hmn).1
        simpa using hsp)
    obtain ⟨hpw, hptmp⟩ := hps
    constructor
    · intro j hj
      simp only [rounds_succ]
      by_cases hjn : j < n
      · rw [List.getD_append _ _ _ _
          (by rw [peel_fst, List.length_map, rounds_fst_length]; exact hjn)]
        have hres := hpw j (by rw [rounds_fst_length]; exact hjn)
        simpa using hres
      · have hjeq : j = n := by omega
        subst hjeq
        rw [List.getD_append_right _ _ _ _
          (by rw [peel_fst, List.length_map, rounds_fst_length])]
        rw [peel_fst, List.length_map, rounds_fst_length, Nat.sub_self,
          List.getD_cons_zero]
        have h1 : zRem p z j ≡ balDig p z j [ZMOD (p : ℤ)] :=
          (balDigit_modEq p (zRem p z j)).symm
        have heq : j + 1 - j = 1 := by omega
        rw [heq, pow_one]
        exact hptmp.trans h1
    · intro j hj
      simp only [rounds_succ]
      by_cases hjn : j < n
      · rw [List.getD_append _ _ _ _ (by rw [rounds_snd_length]; exact hjn)]
        exact ihds j hjn
      · have hjeq : j = n := by omega
        subst hjeq
        rw [List.getD_append_right _ _ _ _ (by rw [rounds_snd_length])]
        rw [rounds_snd_length, Nat.sub_self, List.getD_cons_zero]
        exact hptmp

/-! ### Degree bookkeeping -/

theorem length_dropWhile_le (q : List ℤ) (f : ℤ → Bool) :
    (q.dropWhile f).length ≤ q.length := by
  induction q with
  | nil => simp
  | cons a q ih =>
    rw [List.dropWhile_cons]
    split
    · exact le_trans ih (by simp)
    · simp

theorem polyDeg_lt (q : List ℤ) : polyDeg q < (q.length : ℤ) := by
  unfold polyDeg
  have h1 := length_dropWhile_le q.reverse (fun a => a == 0)
  rw [List.length_reverse] at h1
  omega

theorem polyDeg_concat_one (A : List ℤ) : polyDeg (A ++ [1]) = (A.length : ℤ) := by
  unfold polyDeg
  rw [List.reverse_append]
  show ((List.dropWhile (fun a => a == 0) ((1 : ℤ) :: A.reverse)).length : ℤ) - 1 = _
  rw [List.dropWhile_cons, if_neg (by decide)]
  rw [List.length_cons, List.length_reverse]
  push_cast
  ring

theorem buildDigitPolynomial_shape {p e : ℕ} (h2 : 2 ≤ p) (he : 2 ≤ e) :
    ∃ A : List ℤ, buildDigitPolynomial p e = A ++ [1] ∧ A.length = p := by
  unfold buildDigitPolynomial
  rw [if_neg (by omega)]
  unfold setCoeffMonic
  refine ⟨_, rfl, ?_⟩
  have hlen : (interpolateMod (digitTableX p) (digitTableY p e) p e).length ≤ p := by
    have h := interpolateMod_length_le (digitTableX p) (digitTableY p e) p e
    rwa [digitTableX_length] at h
  rw [List.length_take, List.length_append, List.length_replicate]
  omega

/-! ### Unfolding lemmas for the entry point -/

theorem extractDigits_def (p : ℕ) (c : Ctxt) (r : ℤ) (s : Bool) :
    extractDigits p c r s =
      extractDigitsWith p (if 3 < p then buildDigitPolynomial p (clampR c r) else [])
        c (clampR c r) s := rfl

theorem extractDigitsWith_def (p : ℕ) (x2p : List ℤ) (c : Ctxt) (rc : ℕ) (s : Bool) :
    extractDigitsWith p x2p c rc s =
      if s then (rounds p x2p c rc).2 else (rounds p x2p c rc).1 := rfl

theorem foldl_cIn {f : MState → ℕ → MState} (hf : ∀ st i, (f st i).cIn = st.cIn) :
    ∀ (l : List ℕ) (st : MState), (l.foldl f st).cIn = st.cIn := by
  intro l
  induction l with
  | nil => intro st; rfl
  | cons a l ih => intro st; rw [List.foldl_cons, ih, hf]

/-! ### Claim theorems -/

/-- Claim C2 (amended): for every prime `p ≥ 2`, precision `e > 1`, level
`1 ≤ t < e`, centered representative `z0` (an entry of the interpolation
abscissas, i.e. `-(p/2) ≤ z0 < p - p/2`), and integer `z ≡ z0 (mod p^t)`,
evaluating `buildDigitPolynomial p e` at `z` yields a value `≡ z0
(mod p^(t+1))`.  The frozen claim instead ranges `z0` over `[0, p)` and
assumes only `z ≡ z0 (mod p)` for every `t < e`; both are refuted by the
counterexample (a single evaluation fixes the centered representative and
gains exactly one level of precision). -/
theorem buildDigitPolynomial_lift_congruence {p e t : ℕ} (hp : p.Prime)
    (he : 1 < e) (ht : 1 ≤ t) (hte : t < e) {z z0 : ℤ}
    (hz0 : z0 ∈ digitTableX p) (hz : z ≡ z0 [ZMOD (p : ℤ) ^ t]) :
    evalPoly (buildDigitPolynomial p e) z ≡ z0 [ZMOD (p : ℤ) ^ (t + 1)] :=
  build_lift_aux hp (by omega) ht hte hz0 hz

/-- Claim C2 counterexample: take `p = 5`, `e = 2`, `z0 = 3 ∈ [0, 5)`,
`t = 1 < e` and `z = 3 ≡ z0 (mod 5)`.  The digit polynomial evaluated at 3
is `≡ 23 ≡ -2 (mod 25)`, not `≡ 3 (mod 25)`: the polynomial fixes the
centered representative `-2` of the residue class, not the representative
in `[0, p)`. -/
theorem buildDigitPolynomial_plain_residue_counterexample :
    evalPoly (buildDigitPolynomial 5 2) 3 % (5 : ℤ) ^ 2 = 23 ∧
    ¬ (evalPoly (buildDigitPolynomial 5 2) 3 ≡ 3 [ZMOD (5 : ℤ) ^ (1 + 1)]) := by
  decide

/-- Witness for the amended Claim C2 at `p = 5`, `e = 2`, `t = 1`,
`z0 = -2`, `z = 3`. -/
theorem buildDigitPolynomial_lift_congruence_witness :
    (Nat.Prime 5 ∧ (1 : ℕ) < 2 ∧ (1 : ℕ) ≤ 1 ∧ (-2 : ℤ) ∈ digitTableX 5 ∧
      (3 : ℤ) ≡ -2 [ZMOD ((5 : ℕ) : ℤ) ^ 1]) ∧
    evalPoly (buildDigitPolynomial 5 2) 3 ≡ -2 [ZMOD ((5 : ℕ) : ℤ) ^ (1 + 1)] :=
  ⟨⟨by norm_num, by norm_num, by norm_num, by decide, by decide⟩,
    buildDigitPolynomial_lift_congruence (by norm_num) (by norm_num)
      (by norm_num) (by norm_num) (by decide) (by decide)⟩

/-- Claim C3: for `p ≥ 2` and `e > 1`, the interpolated correction
polynomial inside `buildDigitPolynomial` has degree at most `p - 1` (the
source's assertion `deg(result) < p` holds), and the returned polynomial
(after `SetCoeff(result, p)`) has degree exactly `p` with leading
coefficient `1`. -/
theorem buildDigitPolynomial_degree {p e : ℕ} (h2 : 2 ≤ p) (he : 1 < e) :
    polyDeg (interpolateMod (digitTableX p) (digitTableY p e) p e) < (p : ℤ) ∧
    polyDeg (buildDigitPolynomial p e) = (p : ℤ) ∧
    (buildDigitPolynomial p e).getD p 0 = 1 := by
  have hlen : (interpolateMod (digitTableX p) (digitTableY p e) p e).length ≤ p := by
    have h := interpolateMod_length_le (digitTableX p) (digitTableY p e) p e
    rwa [digitTableX_length] at h
  obtain ⟨A, hA, hAlen⟩ := buildDigitPolynomial_shape (e := e) h2 (by omega)
  refine ⟨?_, ?_, ?_⟩
  · have h := polyDeg_lt (interpolateMod (digitTableX p) (digitTableY p e) p e)
    have hc : ((interpolateMod (digitTableX p) (digitTableY p e) p e).length : ℤ)
        ≤ (p : ℤ) := by exact_mod_cast hlen
    exact lt_of_lt_of_le h hc
  · rw [hA, polyDeg_concat_one, hAlen]
  · rw [hA, List.getD_append_right _ _ _ _ hAlen.le, hAlen, Nat.sub_self,
      List.getD_cons_zero]

/-- Witness for Claim C3 at `p = 5`, `e = 2`. -/
theorem buildDigitPolynomial_degree_witness :
    ((2 : ℕ) ≤ 5 ∧ (1 : ℕ) < 2) ∧
    (polyDeg (interpolateMod (digitTableX 5) (digitTableY 5 2) 5 2) < ((5 : ℕ) : ℤ) ∧
      polyDeg (buildDigitPolynomial 5 2) = ((5 : ℕ) : ℤ) ∧
      (buildDigitPolynomial 5 2).getD 5 0 = 1) :=
  ⟨⟨by norm_num, by norm_num⟩, buildDigitPolynomial_degree (by norm_num) (by norm_num)⟩

/-- Claim C4: a requested digit count `r ≤ 0` or `r > effectiveR(c)` is
silently clamped: the call produces exactly the same output as the call
with `r = effectiveR(c)` (no error channel exists in the model or in the
source). -/
theorem extractDigits_clamp (p : ℕ) (c : Ctxt) (r : ℤ) (s : Bool)
    (h : r ≤ 0 ∨ r > (c.effectiveR : ℤ)) :
    extractDigits p c r s = extractDigits p c (c.effectiveR : ℤ) s := by
  have hc : clampR c r = clampR c (c.effectiveR : ℤ) := by
    unfold clampR
    rw [if_pos h]
    split
    · rfl
    · rfl
  rw [extractDigits_def, extractDigits_def, hc]

/-- Witness for Claim C4 at `p = 3`, `c = ⟨5, 2⟩`, `r = 7 > effectiveR = 2`. -/
theorem extractDigits_clamp_witness :
    ((7 : ℤ) ≤ 0 ∨ (7 : ℤ) > ((Ctxt.mk 5 2).effectiveR : ℤ)) ∧
    extractDigits 3 ⟨5, 2⟩ 7 true =
      extractDigits 3 ⟨5, 2⟩ ((Ctxt.mk 5 2).effectiveR : ℤ) true :=
  ⟨by decide, extractDigits_clamp 3 ⟨5, 2⟩ 7 true (by decide)⟩

/-- Claim C6: the digit polynomial is relevant only when `p > 3` and the
clamped digit count exceeds 1.  (a) For `p ≤ 3` the output never consults
any polynomial (the source builds `x2p` only under `if (p > 3)`).  (b) When
the clamped count is `≤ 1` the output is independent of the polynomial
argument — no `polyEval` happens, so the empty polynomial produced by the
builder's `e ≤ 1` guard is never evaluated.  (c) When `polyEval` does run
(`p > 3` and clamped count `≥ 2`) the polynomial used is
`buildDigitPolynomial p rc` with `p > 3` and `rc > 1`, and it is an
actually-built (nonempty) polynomial. -/
theorem extractDigits_polynomial_usage (p : ℕ) (c : Ctxt) (r : ℤ) (s : Bool) :
    (p ≤ 3 → extractDigits p c r s = extractDigitsWith p [] c (clampR c r) s) ∧
    (clampR c r ≤ 1 → ∀ q1 q2 : List ℤ,
      extractDigitsWith p q1 c (clampR c r) s =
        extractDigitsWith p q2 c (clampR c r) s) ∧
    (3 < p → 2 ≤ clampR c r →
      extractDigits p c r s =
        extractDigitsWith p (buildDigitPolynomial p (clampR c r)) c (clampR c r) s ∧
      buildDigitPolynomial p (clampR c r) ≠ []) := by
  refine ⟨?_, ?_, ?_⟩
  · intro hple
    rw [extractDigits_def, if_neg (by omega)]
  · intro hrc q1 q2
    have h01 : clampR c r = 0 ∨ clampR c r = 1 := by omega
    rcases h01 with h | h <;> rw [h]
    · rfl
    · rfl
  · intro hp3 hrc
    refine ⟨by rw [extractDigits_def, if_pos hp3], ?_⟩
    unfold buildDigitPolynomial
    rw [if_neg (by omega)]
    unfold setCoeffMonic
    simp

/-- Witness for Claim C6 at `p = 5`, `c = ⟨7, 2⟩`, `r = 2`. -/
theorem extractDigits_polynomial_usage_witness :
    ((3 : ℕ) < 5 ∧ 2 ≤ clampR ⟨7, 2⟩ 2) ∧
    (extractDigits 5 ⟨7, 2⟩ 2 true =
      extractDigitsWith 5 (buildDigitPolynomial 5 (clampR ⟨7, 2⟩ 2)) ⟨7, 2⟩
        (clampR ⟨7, 2⟩ 2) true ∧
      buildDigitPolynomial 5 (clampR ⟨7, 2⟩ 2) ≠ []) :=
  ⟨⟨by norm_num, by decide⟩,
    (extractDigits_polynomial_usage 5 ⟨7, 2⟩ 2 true).2.2 (by norm_num) (by decide)⟩

/-- Claim C7 (amended): for `p ≥ 2`, `e > 1`, the table is built over the
`p` centered representatives `-(p/2) + j`, one per residue class modulo
`p`; each ordinate is `≡ z - z^p (mod p^e)` and is folded into the closed
interval `[-⌊p^e/2⌋, ⌊p^e/2⌋]`.  (For odd `p` this equals the frozen
claim's interval `(-p^e/2, p^e/2]`; for `p = 2` the lower endpoint
`-p^e/2` is attained, refuting the frozen claim's open lower bound.) -/
theorem digitTable_centered {p e : ℕ} (h2 : 2 ≤ p) (he : 1 < e) :
    (digitTableX p).length = p ∧
    (∀ j, j < p → (digitTableX p).getD j 0 = -((p : ℤ) / 2) + j) ∧
    (∀ j k, j < p → k < p →
      (digitTableX p).getD j 0 ≡ (digitTableX p).getD k 0 [ZMOD (p : ℤ)] →
      j = k) ∧
    (∀ j, j < p → (digitTableY p e).getD j 0 ≡
      (digitTableX p).getD j 0 - (digitTableX p).getD j 0 ^ p [ZMOD (p : ℤ) ^ e]) ∧
    (∀ j, j < p → -((p : ℤ) ^ e / 2) ≤ (digitTableY p e).getD j 0 ∧
      (digitTableY p e).getD j 0 ≤ (p : ℤ) ^ e / 2) := by
  have hm2p : 2 * (p : ℤ) ≤ (p : ℤ) ^ e := by
    have h1 : p ^ 2 ≤ p ^ e := Nat.pow_le_pow_right (by omega) (by omega)
    have h22 : 2 * p ≤ p ^ 2 := by
      have hsq : p ^ 2 = p * p := by ring
      rw [hsq]
      exact Nat.mul_le_mul_right p h2
    exact_mod_cast le_trans h22 h1
  have hmpos : (0 : ℤ) < (p : ℤ) ^ e := by positivity
  refine ⟨digitTableX_length p, ?_, ?_, ?_, ?_⟩
  · intro j hj
    rw [digitTableX_getD hj]
    rfl
  · intro j k hj hk hcong
    rw [digitTableX_getD hj, digitTableX_getD hk] at hcong
    have hd := hcong.dvd
    have heq : xNode p k - xNode p j = (k : ℤ) - j := by unfold xNode; ring
    rw [heq] at hd
    have hnat : p ∣ ((k : ℤ) - j).natAbs := by
      have h := Int.natAbs_dvd_natAbs.mpr hd
      rwa [Int.natAbs_ofNat] at h
    have habs : ((k : ℤ) - j).natAbs < p := by omega
    have hz := Nat.eq_zero_of_dvd_of_lt hnat habs
    omega
  · intro j hj
    rw [digitTableX_getD hj]
    exact digitTableY_modEq hj
  · intro j hj
    rw [digitTableY_getD hj]
    have hpm0 : (0 : ℤ) ≤
        (if xNode p j < 0 then xNode p j + (p : ℤ) ^ e else xNode p j) ^ p %
          (p : ℤ) ^ e := Int.emod_nonneg _ hmpos.ne'
    have hpm1 :
        (if xNode p j < 0 then xNode p j + (p : ℤ) ^ e else xNode p j) ^ p %
          (p : ℤ) ^ e < (p : ℤ) ^ e := Int.emod_lt_of_pos _ hmpos
    have hxlow : -((p : ℤ) / 2) ≤ xNode p j := by unfold xNode; omega
    have hxup : xNode p j < (p : ℤ) - (p : ℤ) / 2 := by
      have hjz : (j : ℤ) < p := by exact_mod_cast hj
      unfold xNode
      omega
    exact foldBalanced_bounds (by omega) (by omega)

/-- Claim C7 counterexample: for `p = 2`, `e = 2` the first ordinate is
`-2 = -p^e/2`, which lies outside the frozen claim's half-open interval
`(-p^e/2, p^e/2]` (stated here as `-p^e < 2·y`). -/
theorem digitTable_interval_counterexample :
    (digitTableY 2 2).getD 0 0 = -2 ∧
    ¬ (-((2 : ℤ) ^ 2) < 2 * (digitTableY 2 2).getD 0 0) := by
  decide

/-- Witness for the amended Claim C7 at `p = 5`, `e = 2`. -/
theorem digitTable_centered_witness :
    ((2 : ℕ) ≤ 5 ∧ (1 : ℕ) < 2) ∧
    ((digitTableX 5).length = 5 ∧
      (∀ j, j < 5 → (digitTableX 5).getD j 0 = -(((5 : ℕ) : ℤ) / 2) + j) ∧
      (∀ j k, j < 5 → k < 5 →
        (digitTableX 5).getD j 0 ≡ (digitTableX 5).getD k 0 [ZMOD ((5 : ℕ) : ℤ)] →
        j = k) ∧
      (∀ j, j < 5 → (digitTableY 5 2).getD j 0 ≡
        (digitTableX 5).getD j 0 - (digitTableX 5).getD j 0 ^ 5
          [ZMOD ((5 : ℕ) : ℤ) ^ 2]) ∧
      (∀ j, j < 5 → -(((5 : ℕ) : ℤ) ^ 2 / 2) ≤ (digitTableY 5 2).getD j 0 ∧
        (digitTableY 5 2).getD j 0 ≤ ((5 : ℕ) : ℤ) ^ 2 / 2)) :=
  ⟨⟨by norm_num, by norm_num⟩, digitTable_centered (by norm_num) (by norm_num)⟩

/-- Claim C1 (amended): for a prime `p`, a slot holding `z ∈ [0, p^r)` with
plaintext space `p^r` and requested digit count `r ≥ 1` (equal to the
clamped count), `extractDigits` produces `r` digits carrying the BALANCED
base-p expansion of `z` (digits in `{0,1}` for `p = 2` and in
`[-(p-1)/2, (p-1)/2]` for odd `p`): the shortcut output `j` holds the
`j`-th balanced digit modulo `p`, and the non-shortcut output `j` holds it
modulo `p^(r-j)` (so it decrypts to that digit reduced mod `p^(r-j)`).
The frozen claim's standard digits `d0..d(r-1)` are refuted by the
counterexample. -/
theorem extractDigits_balanced_digits_correct {p : ℕ} (hp : p.Prime) {r : ℕ}
    (hr : 1 ≤ r) {z : ℤ} (hz0 : 0 ≤ z) (hz1 : z < (p : ℤ) ^ r) :
    (extractDigits p ⟨z, r⟩ (r : ℤ) true).length = r ∧
    (extractDigits p ⟨z, r⟩ (r : ℤ) false).length = r ∧
    ∀ j, j < r →
      ((extractDigits p ⟨z, r⟩ (r : ℤ) true).getD j default).val ≡
        balDig p z j [ZMOD (p : ℤ)] ∧
      ((extractDigits p ⟨z, r⟩ (r : ℤ) false).getD j default).val ≡
        balDig p z j [ZMOD (p : ℤ) ^ (r - j)] ∧
      decrypt p ((extractDigits p ⟨z, r⟩ (r : ℤ) false).getD j default) =
        balDig p z j % (p : ℤ) ^ (r - j) := by
  have hclamp : clampR ⟨z, r⟩ (r : ℤ) = r := clampR_natCast hr (le_refl _)
  have htrue : extractDigits p ⟨z, r⟩ (r : ℤ) true =
      (rounds p (if 3 < p then buildDigitPolynomial p r else []) ⟨z, r⟩ r).2 := by
    rw [extractDigits_def, hclamp]
    rfl
  have hfalse : extractDigits p ⟨z, r⟩ (r : ℤ) false =
      (rounds p (if 3 < p then buildDigitPolynomial p r else []) ⟨z, r⟩ r).1 := by
    rw [extractDigits_def, hclamp]
    rfl
  have hx : 3 < p → (if 3 < p then buildDigitPolynomial p r else []) =
      buildDigitPolynomial p r := fun h => if_pos h
  obtain ⟨hw, hds⟩ := rounds_spec (z := z) hp hx r (le_refl r)
  refine ⟨by rw [htrue, rounds_snd_length], by rw [hfalse, rounds_fst_length], ?_⟩
  intro j hj
  refine ⟨?_, ?_, ?_⟩
  · rw [htrue]
    exact (hds j hj).trans (balDigit_modEq p (zRem p z j)).symm
  · rw [hfalse]
    exact hw j hj
  · rw [hfalse]
    have hsp : (((rounds p (if 3 < p then buildDigitPolynomial p r else [])
        ⟨z, r⟩ r).1.getD j default)).space = r - j :=
      (rounds_spaces p (if 3 < p then buildDigitPolynomial p r else [])
        ⟨z, r⟩ r j hj).1
    unfold decrypt
    rw [hsp]
    exact hw j hj

/-- Claim C1 counterexample: for `p = 3`, `z = 2`, `r = 2` the standard
base-3 digits of 2 are `(2, 0)`, but the shortcut output 1 decrypts to `1`
(not 0) and the non-shortcut output 0 decrypts to `8 ≡ -1 (mod 9)` (not 2):
the routine extracts balanced digits `(-1, 1)`, since `2 = -1 + 3·1`. -/
theorem extractDigits_standard_digit_counterexample :
    decrypt 3 ((extractDigits 3 ⟨2, 2⟩ (2 : ℤ) true).getD 1 default) = 1 ∧
    (2 : ℤ) / 3 % 3 = 0 ∧
    decrypt 3 ((extractDigits 3 ⟨2, 2⟩ (2 : ℤ) false).getD 0 default) = 8 ∧
    (2 : ℤ) % 9 = 2 := by
  decide

/-- Witness for the amended Claim C1 at `p = 3`, `z = 2`, `r = 2`. -/
theorem extractDigits_balanced_digits_correct_witness :
    (Nat.Prime 3 ∧ (1 : ℕ) ≤ 2 ∧ (0 : ℤ) ≤ 2 ∧ (2 : ℤ) < ((3 : ℕ) : ℤ) ^ 2) ∧
    ((extractDigits 3 ⟨2, 2⟩ ((2 : ℕ) : ℤ) true).length = 2 ∧
      (extractDigits 3 ⟨2, 2⟩ ((2 : ℕ) : ℤ) false).length = 2 ∧
      ∀ j, j < 2 →
        ((extractDigits 3 ⟨2, 2⟩ ((2 : ℕ) : ℤ) true).getD j default).val ≡
          balDig 3 2 j [ZMOD ((3 : ℕ) : ℤ)] ∧
        ((extractDigits 3 ⟨2, 2⟩ ((2 : ℕ) : ℤ) false).getD j default).val ≡
          balDig 3 2 j [ZMOD ((3 : ℕ) : ℤ) ^ (2 - j)] ∧
        decrypt 3 ((extractDigits 3 ⟨2, 2⟩ ((2 : ℕ) : ℤ) false).getD j default) =
          balDig 3 2 j % ((3 : ℕ) : ℤ) ^ (2 - j)) :=
  ⟨⟨by norm_num, by norm_num, by norm_num, by norm_num⟩,
    extractDigits_balanced_digits_correct (by norm_num) (by norm_num)
      (by norm_num) (by norm_num)⟩

/-- Claim C5 (amended): the returned sequence has length equal to the
clamped digit count in both modes, and entry `j` of BOTH modes carries the
plaintext space `p^(R-j)` where `R = effectiveR(c)` (in shortcut mode the
entry is the round-`j` snapshot whose meaningful content is its value mod
`p`; level bookkeeping belongs to the external ciphertext type and is not
asserted).  The frozen claim's "plaintext modulus p" for every shortcut
entry is refuted by the counterexample. -/
theorem extractDigits_length_and_spaces (p : ℕ) (c : Ctxt) (r : ℤ) :
    (extractDigits p c r true).length = clampR c r ∧
    (extractDigits p c r false).length = clampR c r ∧
    ∀ j, j < clampR c r →
      ((extractDigits p c r true).getD j default).space = c.effectiveR - j ∧
      ((extractDigits p c r false).getD j default).space = c.effectiveR - j := by
  refine ⟨?_, ?_, ?_⟩
  · rw [extractDigits_def, extractDigitsWith_def, if_pos rfl, rounds_snd_length]
  · rw [extractDigits_def, extractDigitsWith_def, if_neg (by simp),
      rounds_fst_length]
  · intro j hj
    have h := rounds_spaces p
      (if 3 < p then buildDigitPolynomial p (clampR c r) else []) c
      (clampR c r) j hj
    exact ⟨by rw [extractDigits_def, extractDigitsWith_def, if_pos rfl]; exact h.2,
      by rw [extractDigits_def, extractDigitsWith_def, if_neg (by simp)]; exact h.1⟩

/-- Claim C5 counterexample: for `p = 2`, input space `p^2`, `r = 2`,
shortcut entry 0 has plaintext-space exponent 2 (modulus `p^2`), not the
claimed plaintext modulus `p` (exponent 1). -/
theorem extractDigits_shortcut_modulus_counterexample :
    ((extractDigits 2 ⟨3, 2⟩ (2 : ℤ) true).getD 0 default).space = 2 ∧
    (2 : ℕ) ≠ 1 := by
  decide

/-- Witness for the amended Claim C5 at `p = 2`, `c = ⟨3, 2⟩`, `r = 2`,
entry `j = 1`. -/
theorem extractDigits_length_and_spaces_witness :
    1 < clampR ⟨3, 2⟩ (2 : ℤ) ∧
    (((extractDigits 2 ⟨3, 2⟩ (2 : ℤ) true).getD 1 default).space =
        (Ctxt.mk 3 2).effectiveR - 1 ∧
      ((extractDigits 2 ⟨3, 2⟩ (2 : ℤ) false).getD 1 default).space =
        (Ctxt.mk 3 2).effectiveR - 1) :=
  ⟨by decide, (extractDigits_length_and_spaces 2 ⟨3, 2⟩ 2).2.2 1 (by decide)⟩

/-- Claim C8: for the same input and clamped digit count `r ≥ 1`, the
`(r-1)`-th output entries of shortcut and non-shortcut mode are the SAME
ciphertext (round `r-1` stores `tmp` into both `w[r-1]` and, in shortcut
mode, `digits[r-1]`, and `w[r-1]` is never touched afterwards), so they
decrypt to the same integer value. -/
theorem extractDigits_top_digit_mode_equiv (p : ℕ) (c : Ctxt) (r : ℤ)
    (h : 1 ≤ clampR c r) :
    (extractDigits p c r false).getD (clampR c r - 1) default =
      (extractDigits p c r true).getD (clampR c r - 1) default ∧
    decrypt p ((extractDigits p c r false).getD (clampR c r - 1) default) =
      decrypt p ((extractDigits p c r true).getD (clampR c r - 1) default) := by
  have hkey : ∀ (q : List ℤ) (m : ℕ),
      (rounds p q c (m + 1)).1.getD m default =
        (rounds p q c (m + 1)).2.getD m default := by
    intro q m
    rw [rounds_succ]
    rw [List.getD_append_right _ _ _ _
        (by rw [peel_fst, List.length_map, rounds_fst_length]),
      List.getD_append_right _ _ _ _ (by rw [rounds_snd_length])]
    rw [peel_fst, List.length_map, rounds_fst_length, rounds_snd_length]
  obtain ⟨m, hm⟩ : ∃ m, clampR c r = m + 1 := ⟨clampR c r - 1, by omega⟩
  have hmain : (extractDigits p c r false).getD (clampR c r - 1) default =
      (extractDigits p c r true).getD (clampR c r - 1) default := by
    rw [extractDigits_def, extractDigits_def, extractDigitsWith_def,
      extractDigitsWith_def, if_pos rfl, if_neg (by simp), hm]
    have hm1 : m + 1 - 1 = m := by omega
    rw [hm1]
    exact hkey _ m
  exact ⟨hmain, by rw [hmain]⟩

/-- Witness for Claim C8 at `p = 3`, `c = ⟨2, 2⟩`, `r = 2`. -/
theorem extractDigits_top_digit_mode_equiv_witness :
    1 ≤ clampR ⟨2, 2⟩ (2 : ℤ) ∧
    ((extractDigits 3 ⟨2, 2⟩ 2 false).getD (clampR ⟨2, 2⟩ 2 - 1) default =
        (extractDigits 3 ⟨2, 2⟩ 2 true).getD (clampR ⟨2, 2⟩ 2 - 1) default ∧
      decrypt 3 ((extractDigits 3 ⟨2, 2⟩ 2 false).getD (clampR ⟨2, 2⟩ 2 - 1) default) =
        decrypt 3 ((extractDigits 3 ⟨2, 2⟩ 2 true).getD (clampR ⟨2, 2⟩ 2 - 1) default)) :=
  ⟨by decide, extractDigits_top_digit_mode_equiv 3 ⟨2, 2⟩ 2 (by decide)⟩

/-- Claim C9: the state-machine embedding of `extractDigits` (mirroring the
C++ statement by statement: every write goes to the working copy `tmp`, the
residue array `w`, or the output vector `digits`) leaves the input
ciphertext cell untouched: after the run the input is bit-for-bit the one
passed in. -/
theorem extractDigitsState_preserves_input (p : ℕ) (c : Ctxt) (r : ℤ) (s : Bool) :
    (extractDigitsState p c r s).cIn = c := by
  have hround : ∀ (st : MState) (i : ℕ),
      (roundI p (if 3 < p then buildDigitPolynomial p (clampR c r) else []) s
        st i).cIn = st.cIn := by
    intro st i
    show ((List.range i).foldl
        (innerJ p (if 3 < p then buildDigitPolynomial p (clampR c r) else []))
        { st with tmp := st.cIn }).cIn = st.cIn
    exact foldl_cIn
      (f := innerJ p (if 3 < p then buildDigitPolynomial p (clampR c r) else []))
      (fun st j => rfl) _ _
  simp only [extractDigitsState]
  split
  · exact foldl_cIn hround _ _
  · exact foldl_cIn hround _ _

/-- Claim C10: for every index `j` below the clamped digit count `rc`, the
non-shortcut output entry `j` equals the result of applying the
p-th-power-mimicking operation (square for `p = 2`, cube for `p = 3`,
otherwise evaluation of the digit polynomial built for `rc`) exactly
`rc - 1 - j` times to the shortcut output entry `j`; in particular for
`j = rc - 1` the two outputs are identical ciphertexts. -/
theorem extractDigits_mode_iterate (p : ℕ) (c : Ctxt) (r : ℤ) {j : ℕ}
    (hj : j < clampR c r) :
    (extractDigits p c r false).getD j default =
      (mimicPow p (if 3 < p then buildDigitPolynomial p (clampR c r) else
        []))^[clampR c r - 1 - j]
        ((extractDigits p c r true).getD j default) :=
  rounds_w_iterate p
    (if 3 < p then buildDigitPolynomial p (clampR c r) else []) c
    (clampR c r) j hj

/-- Witness for Claim C10 at `p = 3`, `c = ⟨5, 2⟩`, `r = 2`, `j = 0`. -/
theorem extractDigits_mode_iterate_witness :
    0 < clampR ⟨5, 2⟩ (2 : ℤ) ∧
    (extractDigits 3 ⟨5, 2⟩ 2 false).getD 0 default =
      (mimicPow 3 (if 3 < 3 then buildDigitPolynomial 3 (clampR ⟨5, 2⟩ 2) else
        []))^[clampR ⟨5, 2⟩ 2 - 1 - 0]
        ((extractDigits 3 ⟨5, 2⟩ 2 true).getD 0 default) :=
  ⟨by decide, extractDigits_mode_iterate 3 ⟨5, 2⟩ 2 (by decide)⟩

end HElibDigits

